import Mathlib

/-!
Shallow embedding of `scripts/dev/analyze_architecture.py` (vaino architecture
conformance checker) and verification of its specification claims.

Modelling conventions:
* Python dicts are modelled as association lists in insertion order
  (`List (String × List String)`); CPython dicts iterate in insertion order.
* Python sets of neighbours are modelled as first-occurrence-ordered
  duplicate-free lists (CPython set iteration order is hash-dependent and
  unspecified; the properties proved below do not depend on this order).
* Python string containment (`pat in s`) and `startswith` are modelled on the
  character lists of the strings.
* The `defaultdict(set)` used by `find_circular_dependencies` silently inserts
  an empty adjacency entry whenever `graph[start]` is evaluated at a missing
  key; because this happens while the surrounding `for package in graph` loop
  is iterating the dict, CPython raises `RuntimeError: dictionary changed size
  during iteration` at the next step of that loop.  The model tracks such
  insertions and returns `Except.error ()` exactly when CPython raises.
* Python's unbounded recursion in `has_path` is modelled with an explicit fuel
  parameter; it is proved below that any fuel beyond the number of graph keys
  gives the same answer, so the canonical fuel used by the detector computes
  the Python value.
-/

namespace Vaino

/-- Python `pre in s` restricted to list-of-characters prefixes:
`p.isPrefixOf s` tests whether `p` is an initial segment of `s`. -/
def prefB (p s : List Char) : Bool :=
  match p, s with
  | [], _ => true
  | _ :: _, [] => false
  | a :: as, b :: bs => a == b && prefB as bs

/-- Python substring containment `pat in s` on character lists. -/
def substrLB (pat s : List Char) : Bool :=
  match s with
  | [] => pat.isEmpty
  | _ :: cs => prefB pat s || substrLB pat cs

/-- Python `pat in s` for strings (substring containment). -/
def substrB (pat s : String) : Bool :=
  substrLB pat.toList s.toList

/-- Python `s.startswith(pre)`. -/
def startsWithB (s pre : String) : Bool :=
  prefB pre.toList s.toList

theorem prefB_iff (p s : List Char) : prefB p s = true ↔ ∃ r, s = p ++ r := by
  induction p generalizing s with
  | nil => simp [prefB]
  | cons a as ih =>
    cases s with
    | nil => simp [prefB]
    | cons b bs =>
      simp only [prefB, Bool.and_eq_true, beq_iff_eq, ih, List.cons_append,
        List.cons.injEq]
      constructor
      · rintro ⟨rfl, r, rfl⟩; exact ⟨r, rfl, rfl⟩
      · rintro ⟨r, rfl, rfl⟩; exact ⟨rfl, r, rfl⟩

theorem substrLB_iff (pat s : List Char) :
    substrLB pat s = true ↔ ∃ l r, s = l ++ pat ++ r := by
  induction s with
  | nil =>
    simp only [substrLB, List.isEmpty_iff]
    constructor
    · rintro rfl; exact ⟨[], [], rfl⟩
    · rintro ⟨l, r, h⟩
      rcases List.append_eq_nil.mp h.symm with ⟨h1, h2⟩
      exact (List.append_eq_nil.mp h1).2
  | cons c cs ih =>
    simp only [substrLB, Bool.or_eq_true, prefB_iff, ih]
    constructor
    · rintro (⟨r, hr⟩ | ⟨l, r, hr⟩)
      · exact ⟨[], r, by simp [hr]⟩
      · exact ⟨c :: l, r, by simp [hr]⟩
    · rintro ⟨l, r, hr⟩
      cases l with
      | nil => exact Or.inl ⟨r, by simpa using hr⟩
      | cons x xs =>
        right
        simp only [List.cons_append, List.cons.injEq] at hr
        exact ⟨xs, r, hr.2⟩

/-- Python `pat in s` means: `pat` occurs as a contiguous substring of `s`. -/
theorem substrB_iff (pat s : String) :
    substrB pat s = true ↔ ∃ l r, s.toList = l ++ pat.toList ++ r :=
  substrLB_iff pat.toList s.toList

/-- The `HIERARCHY` dict of the script, in its source order. -/
def HIERARCHY : List (String × Nat) :=
  [("cmd/", 1),
   ("internal/commands/", 2),
   ("internal/watchers/", 2),
   ("internal/workers/", 2),
   ("internal/collectors/", 3),
   ("internal/storage/", 3),
   ("internal/analysis/", 3),
   ("internal/analyzer/", 3),
   ("internal/differ/", 3),
   ("internal/scanner/", 3),
   ("internal/output/", 3),
   ("internal/cache/", 3),
   ("internal/discovery/", 3),
   ("internal/catchup/", 3),
   ("internal/visualization/", 3),
   ("internal/app/", 3),
   ("internal/config/", 4),
   ("internal/errors/", 4),
   ("internal/utils/", 4),
   ("internal/helpers/", 4),
   ("internal/logger/", 4),
   ("internal/ai/", 4),
   ("pkg/types/", 5),
   ("pkg/config/", 5),
   ("pkg/collectors/", 5)]

/-- The loop body of `get_package_level`, parameterised by the rule list it
scans (the script always passes `HIERARCHY.items()`): return the first rule
whose pattern occurs in the path, as `(level, pattern)`; `none` models the
Python `(None, None)` result. -/
def classifyRules : List (String × Nat) → String → Option (Nat × String)
  | [], _ => none
  | (pat, level) :: rest, path =>
    if substrB pat path then some (level, pat) else classifyRules rest path

/-- `get_package_level` of the script. -/
def get_package_level (path : String) : Option (Nat × String) :=
  classifyRules HIERARCHY path

/-- One dict entry of the `level_violations` list built by
`analyze_violations`.  `pkg_pat` and `imp_pat` are the `pkg_prefix` and
`imp_prefix` fields of the Python dict. -/
structure Violation where
  package : String
  imp : String
  pkg_level : Nat
  pkg_pat : String
  imp_level : Nat
  imp_pat : String
  violation_type : String
deriving DecidableEq

/-- The prefix of the project module namespace tested by
`package.startswith('github.com/yairfalse/vaino/pkg/')`. -/
def pkgSurface : String := "github.com/yairfalse/vaino/pkg/"

/-- `analyze_violations` of the script: one pass over the `imports` dict,
appending to `level_violations` (first component) and `pkg_to_internal`
(second component) exactly as the Python loop does. -/
def analyze_violations (imports : List (String × List String)) :
    List Violation × List String :=
  imports.foldl
    (fun acc pi =>
      let package := pi.1
      let import_list := pi.2
      let acc1 :=
        if startsWithB package pkgSurface then
          (acc.1,
           acc.2 ++ import_list.filterMap (fun imp =>
             if substrB "internal/" imp then
               some ("  " ++ package ++ " imports " ++ imp)
             else none))
        else acc
      match get_package_level package with
      | none => acc1
      | some (pkg_level, pkg_pat) =>
        (acc1.1 ++ import_list.filterMap (fun imp =>
           match get_package_level imp with
           | none => none
           | some (imp_level, imp_pat) =>
             if pkg_level > imp_level then
               some { package := package, imp := imp,
                      pkg_level := pkg_level, pkg_pat := pkg_pat,
                      imp_level := imp_level, imp_pat := imp_pat,
                      violation_type := "upward_dependency" }
             else none),
         acc1.2))
    ([], [])

/-- Level violations contributed by a single `imports` entry. -/
def levelViolationsOf (pi : String × List String) : List Violation :=
  match get_package_level pi.1 with
  | none => []
  | some (pkg_level, pkg_pat) =>
    pi.2.filterMap (fun imp =>
      match get_package_level imp with
      | none => none
      | some (imp_level, imp_pat) =>
        if pkg_level > imp_level then
          some { package := pi.1, imp := imp,
                 pkg_level := pkg_level, pkg_pat := pkg_pat,
                 imp_level := imp_level, imp_pat := imp_pat,
                 violation_type := "upward_dependency" }
        else none)

/-- `pkg_to_internal` messages contributed by a single `imports` entry. -/
def pkgToInternalOf (pi : String × List String) : List String :=
  if startsWithB pi.1 pkgSurface then
    pi.2.filterMap (fun imp =>
      if substrB "internal/" imp then
        some ("  " ++ pi.1 ++ " imports " ++ imp)
      else none)
  else []

theorem analyze_violations_eq (imports : List (String × List String)) :
    analyze_violations imports =
      (imports.flatMap levelViolationsOf, imports.flatMap pkgToInternalOf) := by
  suffices h : ∀ acc : List Violation × List String,
      imports.foldl
        (fun acc pi =>
          let package := pi.1
          let import_list := pi.2
          let acc1 :=
            if startsWithB package pkgSurface then
              (acc.1,
               acc.2 ++ import_list.filterMap (fun imp =>
                 if substrB "internal/" imp then
                   some ("  " ++ package ++ " imports " ++ imp)
                 else none))
            else acc
          match get_package_level package with
          | none => acc1
          | some (pkg_level, pkg_pat) =>
            (acc1.1 ++ import_list.filterMap (fun imp =>
               match get_package_level imp with
               | none => none
               | some (imp_level, imp_pat) =>
                 if pkg_level > imp_level then
                   some { package := package, imp := imp,
                          pkg_level := pkg_level, pkg_pat := pkg_pat,
                          imp_level := imp_level, imp_pat := imp_pat,
                          violation_type := "upward_dependency" }
                 else none),
             acc1.2)) acc =
      (acc.1 ++ imports.flatMap levelViolationsOf,
       acc.2 ++ imports.flatMap pkgToInternalOf) by
    simpa [analyze_violations] using h ([], [])
  induction imports with
  | nil => intro acc; simp
  | cons pi rest ih =>
    intro acc
    simp only [List.foldl_cons, List.flatMap_cons, ih]
    cases hl : get_package_level pi.1 with
    | none =>
      cases hs : startsWithB pi.1 pkgSurface <;>
        simp [levelViolationsOf, pkgToInternalOf, hl, hs, List.append_assoc]
    | some lp =>
      obtain ⟨lv, pat⟩ := lp
      cases hs : startsWithB pi.1 pkgSurface <;>
        simp [levelViolationsOf, pkgToInternalOf, hl, hs, List.append_assoc]

/-! ## Graph construction (`find_circular_dependencies`, lines 126–131) -/

/-- `graph[package].add(imp)` on the association-list model of the
`defaultdict(set)`: create the key on first use, append the neighbour if it is
not already present. -/
def addEdge : List (String × List String) → String → String →
    List (String × List String)
  | [], p, i => [(p, [i])]
  | (q, l) :: rest, p, i =>
    if q = p then (q, if l.contains i then l else l ++ [i]) :: rest
    else (q, l) :: addEdge rest p i

/-- The adjacency-building loop of `find_circular_dependencies`: for every
`(package, import_list)` entry of `imports`, in order, add an edge for each
`imp` with `imp in imports`. -/
def buildGraph (imports : List (String × List String)) :
    List (String × List String) :=
  imports.foldl
    (fun g pi =>
      (pi.2.filter (fun imp => (imports.map Prod.fst).contains imp)).foldl
        (fun g imp => addEdge g pi.1 imp) g)
    []

/-- The keys of the graph dict, in insertion order. -/
def graphKeys (graph : List (String × List String)) : List String :=
  graph.map Prod.fst

/-- Python `x in graph` (no `defaultdict` insertion happens on `in`). -/
def isKey (graph : List (String × List String)) (x : String) : Bool :=
  (graphKeys graph).contains x

/-- The value `graph[x]` reads (an inserted missing key holds the empty set,
which is also what this returns for a missing key). -/
def adj (graph : List (String × List String)) (x : String) : List String :=
  match graph.find? (fun pi => pi.1 == x) with
  | none => []
  | some pi => pi.2

/-! ## `has_path` (lines 133–145)

`has_path(start, end, visited)` with explicit fuel.  The second component of
the result records whether some evaluation of `graph[start]` hit a key missing
from the (original) dict — exactly the situations in which the Python
`defaultdict` inserts a new key and changes the dict's size. -/

def has_path_ins (graph : List (String × List String)) :
    Nat → String → String → List String → Bool × Bool
  | 0, _, _, _ => (false, false)
  | fuel + 1, start, stop, visited =>
    if start = stop then (true, false)
    else if visited.contains start then (false, false)
    else
      (adj graph start).foldl
        (fun acc n =>
          if acc.1 then acc
          else
            let r := has_path_ins graph fuel n stop (start :: visited)
            (r.1, acc.2 || r.2))
        (false, !isKey graph start)

/-- The Boolean value computed by `has_path`. -/
def has_path (graph : List (String × List String))
    (fuel : Nat) (start stop : String) (visited : List String) : Bool :=
  (has_path_ins graph fuel start stop visited).1

theorem has_path_ins_succ (graph : List (String × List String))
    (fuel : Nat) (start stop : String) (visited : List String) :
    has_path_ins graph (fuel + 1) start stop visited =
      if start = stop then (true, false)
      else if visited.contains start then (false, false)
      else
        (adj graph start).foldl
          (fun acc n =>
            if acc.1 then acc
            else
              let r := has_path_ins graph fuel n stop (start :: visited)
              (r.1, acc.2 || r.2))
          (false, !isKey graph start) := rfl

theorem has_path_ins_foldl_fst (graph : List (String × List String))
    (fuel : Nat) (stop : String) (visited : List String) :
    ∀ (l : List String) (b i : Bool),
      (l.foldl
        (fun acc n =>
          if acc.1 then acc
          else
            let r := has_path_ins graph fuel n stop visited
            (r.1, acc.2 || r.2))
        (b, i)).1 =
      (b || l.any (fun n => (has_path_ins graph fuel n stop visited).1)) := by
  intro l
  induction l with
  | nil => intro b i; simp
  | cons n ns ih =>
    intro b i
    cases b with
    | true => simp [ih true i]
    | false =>
      simp only [List.foldl_cons, List.any_cons, Bool.false_or]
      rw [if_neg Bool.false_ne_true, ih]

theorem has_path_zero (graph : List (String × List String))
    (start stop : String) (visited : List String) :
    has_path graph 0 start stop visited = false := rfl

theorem has_path_succ (graph : List (String × List String))
    (fuel : Nat) (start stop : String) (visited : List String) :
    has_path graph (fuel + 1) start stop visited =
      if start = stop then true
      else if visited.contains start then false
      else (adj graph start).any
        (fun n => has_path graph fuel n stop (start :: visited)) := by
  unfold has_path
  rw [has_path_ins_succ]
  by_cases h1 : start = stop
  · simp [h1]
  · by_cases h2 : visited.contains start = true
    · have h2' : start ∈ visited := by simpa using h2
      simp [h1, h2, h2']
    · simp only [if_neg h1, h2, Bool.false_eq_true, if_false]
      rw [has_path_ins_foldl_fst]
      simp

/-! ## Termination of `has_path`

The Python recursion terminates because `visited` grows strictly along every
explored path.  In the fuel model this becomes: once the fuel exceeds the
number of graph keys not yet visited, adding more fuel cannot change the
result. -/

/-- Number of distinct graph keys not yet in `visited`: the quantity that
shrinks strictly at every recursive step of `has_path`. -/
def node_measure (graph : List (String × List String))
    (visited : List String) : Nat :=
  ((graphKeys graph).dedup.filter (fun x => !(visited.contains x))).length

theorem find?_eq_none_of_not_isKey (graph : List (String × List String))
    (s : String) (h : isKey graph s = false) :
    graph.find? (fun pi => pi.1 == s) = none := by
  induction graph with
  | nil => rfl
  | cons pi rest ih =>
    have h' : (s == pi.1) = false ∧ isKey rest s = false := by
      simpa [isKey, graphKeys, List.contains_cons,
        Bool.or_eq_false_iff] using h
    have hne : ¬((pi.1 == s) = true) := by
      intro hbe
      exact (beq_eq_false_iff_ne.mp h'.1) (beq_iff_eq.mp hbe).symm
    rw [@List.find?_cons_of_neg _ (fun pi => pi.1 == s) pi rest hne]
    exact ih h'.2

theorem adj_eq_nil_of_not_isKey (graph : List (String × List String))
    (s : String) (h : isKey graph s = false) : adj graph s = [] := by
  unfold adj
  rw [find?_eq_none_of_not_isKey graph s h]

theorem filter_not_contains_cons {l visited : List String} {s : String}
    (hnd : l.Nodup) (hmem : s ∈ l) (hv : visited.contains s = false) :
    (l.filter (fun x => !((s :: visited).contains x))).length + 1 =
      (l.filter (fun x => !(visited.contains x))).length := by
  induction l with
  | nil => cases hmem
  | cons a as ih =>
    rcases List.mem_cons.mp hmem with rfl | hmem'
    · have has : s ∉ as := (List.nodup_cons.mp hnd).1
      have hfe : as.filter (fun x => !((s :: visited).contains x)) =
          as.filter (fun x => !(visited.contains x)) := by
        apply List.filter_congr
        intro x hx
        have hxs : x ≠ s := fun h => has (h ▸ hx)
        simp [List.contains_cons, hxs]
      have hv' : s ∉ visited := by simpa using hv
      have hp1 : (!((s :: visited).contains s)) = false := by
        simp [List.contains_cons]
      have hp2 : (!(visited.contains s)) = true := by simpa using hv'
      simp only [List.filter_cons]
      rw [hp1, hp2, if_neg Bool.false_ne_true,
        if_pos (show (true : Bool) = true from rfl), hfe, List.length_cons]
    · have hne : a ≠ s := by
        rintro rfl
        exact (List.nodup_cons.mp hnd).1 hmem'
      have ihh := ih (List.nodup_cons.mp hnd).2 hmem'
      have hpa : (!((s :: visited).contains a)) = (!(visited.contains a)) := by
        have : a ≠ s := hne
        simp [List.contains_cons, this]
      simp only [List.filter_cons, hpa]
      split
      · simp only [List.length_cons]; omega
      · omega

theorem node_measure_cons (graph : List (String × List String))
    (s : String) (visited : List String)
    (hk : isKey graph s = true) (hv : visited.contains s = false) :
    node_measure graph (s :: visited) + 1 = node_measure graph visited := by
  apply filter_not_contains_cons (List.nodup_dedup _) _ hv
  exact List.mem_dedup.mpr (by simpa [isKey, graphKeys] using hk)

theorem has_path_ins_step (graph : List (String × List String)) :
    ∀ (fuel : Nat) (start stop : String) (visited : List String),
      node_measure graph visited < fuel →
      has_path_ins graph (fuel + 1) start stop visited =
        has_path_ins graph fuel start stop visited := by
  intro fuel
  induction fuel with
  | zero => intro s e v h; exact absurd h (Nat.not_lt_zero _)
  | succ f ih =>
    intro start stop visited h
    rw [has_path_ins_succ, has_path_ins_succ]
    by_cases h1 : start = stop
    · simp [h1]
    · simp only [if_neg h1]
      by_cases h2 : visited.contains start = true
      · have h2' : start ∈ visited := by simpa using h2
        simp [h2, h2']
      · simp only [h2, Bool.false_eq_true, if_false]
        by_cases hk : isKey graph start = true
        · have hm : node_measure graph (start :: visited) < f := by
            have := node_measure_cons graph start visited hk
              (Bool.eq_false_iff.mpr h2)
            omega
          apply List.foldl_ext
          intro acc n hn
          rw [ih n stop (start :: visited) hm]
        · rw [adj_eq_nil_of_not_isKey graph start (Bool.eq_false_iff.mpr hk)]
          rfl

theorem has_path_ins_stable (graph : List (String × List String)) :
    ∀ (k : Nat) (start stop : String) (visited : List String),
      has_path_ins graph (node_measure graph visited + 1 + k) start stop
          visited =
        has_path_ins graph (node_measure graph visited + 1) start stop
          visited := by
  intro k
  induction k with
  | zero => intro s e v; rfl
  | succ k ih =>
    intro s e v
    have heq : node_measure graph v + 1 + (k + 1) =
        (node_measure graph v + 1 + k) + 1 := by omega
    rw [heq, has_path_ins_step graph (node_measure graph v + 1 + k) s e v
      (by omega)]
    exact ih s e v

/-- Any fuel at least `node_measure graph visited + 1` computes the
(unbounded) Python value of `has_path`. -/
theorem has_path_ins_fuel_irrelevant (graph : List (String × List String))
    (start stop : String) (visited : List String) (fuel : Nat)
    (h : node_measure graph visited + 1 ≤ fuel) :
    has_path_ins graph fuel start stop visited =
      has_path_ins graph (node_measure graph visited + 1) start stop
        visited := by
  obtain ⟨k, rfl⟩ : ∃ k, fuel = node_measure graph visited + 1 + k :=
    ⟨fuel - (node_measure graph visited + 1), by omega⟩
  exact has_path_ins_stable graph k start stop visited

/-! ## `find_circular_dependencies` (lines 124–161)

The outer loop `for package in graph` iterates the dict; CPython raises
`RuntimeError: dictionary changed size during iteration` at the first
`next()` call after the dict gained a key — which happens exactly when some
`has_path` call evaluated `graph[start]` at a missing (dead-end) key.  The
fold below checks the accumulated insertion flag before each loop step and
after the last one, which is precisely when the iterator's size check runs. -/

/-- State of the detection loop: the `cycles` and `checked` accumulators of
the script plus the flag recording whether the `defaultdict` has grown. -/
structure DetState where
  cycles : List (String × String)
  checked : List (String × String)
  inserted : Bool

/-- The body of `for imported in graph[package]`: Python's short-circuit
`imported in graph and has_path(imported, package)` followed by the
dedup-guarded append. -/
def check_import (graph : List (String × List String)) (fuel : Nat)
    (package : String) (st : DetState) (imported : String) : DetState :=
  if isKey graph imported then
    let r := has_path_ins graph fuel imported package []
    let st1 : DetState := { st with inserted := st.inserted || r.2 }
    if r.1 then
      if st1.checked.contains (package, imported) ||
          st1.checked.contains (imported, package) then st1
      else { st1 with
             cycles := st1.cycles ++ [(package, imported)],
             checked := (package, imported) :: (imported, package) ::
               st1.checked }
    else st1
  else st

/-- One iteration of the outer loop for one `package` key. -/
def process_package (graph : List (String × List String)) (fuel : Nat)
    (st : DetState) (package : String) : DetState :=
  (adj graph package).foldl (check_import graph fuel package) st

/-- The outer loop over the dict keys.  The `inserted` check before each step
and after the last one models the dict iterator's size check; `.error ()`
models the `RuntimeError` escaping the function. -/
def run_packages (graph : List (String × List String)) (fuel : Nat) :
    List String → DetState → Except Unit (List (String × String))
  | [], st => if st.inserted then .error () else .ok st.cycles
  | p :: ps, st =>
    if st.inserted then .error ()
    else run_packages graph fuel ps (process_package graph fuel st p)

/-- `find_circular_dependencies` of the script.  The canonical fuel
`node_measure graph [] + 1` computes the value of Python's unbounded
recursion (`has_path_ins_fuel_irrelevant`). -/
def find_circular_dependencies (imports : List (String × List String)) :
    Except Unit (List (String × String)) :=
  let graph := buildGraph imports
  run_packages graph (node_measure graph [] + 1) (graphKeys graph)
    { cycles := [], checked := [], inserted := false }

/-! ## `main` (lines 273–288) -/

/-- The exit status of `main` as a function of the extraction result:
an empty `imports` dict prints an error and returns 1; an uncaught
`RuntimeError` from `find_circular_dependencies` makes the interpreter exit
with status 1; otherwise the status is 1 exactly when some finding exists. -/
def mainExitCode (imports : List (String × List String)) : Nat :=
  if imports.isEmpty then 1
  else
    match find_circular_dependencies imports with
    | .error _ => 1
    | .ok cycles =>
      let vp := analyze_violations imports
      if vp.1.length + vp.2.length + cycles.length > 0 then 1 else 0

/-! ## Characterization of first-match classification -/

theorem classifyRules_eq_none_iff (rules : List (String × Nat))
    (path : String) :
    classifyRules rules path = none ↔
      ∀ r ∈ rules, substrB r.1 path = false := by
  induction rules with
  | nil => simp [classifyRules]
  | cons ru rest ih =>
    obtain ⟨pat, level⟩ := ru
    cases hs : substrB pat path with
    | true => simp [classifyRules, hs]
    | false => simp [classifyRules, hs, ih]

theorem classifyRules_eq_some_iff (rules : List (String × Nat))
    (path : String) (t : Nat) (p : String) :
    classifyRules rules path = some (t, p) ↔
      ∃ l1 l2, rules = l1 ++ (p, t) :: l2 ∧ substrB p path = true ∧
        ∀ r ∈ l1, substrB r.1 path = false := by
  induction rules with
  | nil =>
    simp only [classifyRules]
    constructor
    · rintro ⟨⟩
    · rintro ⟨l1, l2, heq, -, -⟩
      cases l1 <;> simp at heq
  | cons ru rest ih =>
    obtain ⟨pat, level⟩ := ru
    cases hs : substrB pat path with
    | true =>
      have hL : classifyRules ((pat, level) :: rest) path =
          some (level, pat) := by simp [classifyRules, hs]
      rw [hL]
      constructor
      · intro heq
        have hpair : level = t ∧ pat = p := by
          have := Option.some.inj heq
          exact ⟨congrArg Prod.fst this, congrArg Prod.snd this⟩
        obtain ⟨rfl, rfl⟩ := hpair
        exact ⟨[], rest, rfl, hs, by simp⟩
      · rintro ⟨l1, l2, heq, hp, hall⟩
        cases l1 with
        | nil =>
          simp only [List.nil_append, List.cons.injEq] at heq
          have h1 : pat = p := congrArg Prod.fst heq.1
          have h2 : level = t := congrArg Prod.snd heq.1
          rw [h1, h2]
        | cons r l1' =>
          exfalso
          simp only [List.cons_append, List.cons.injEq] at heq
          have hr := hall r (List.mem_cons_self r l1')
          rw [← heq.1] at hr
          simp [hs] at hr
    | false =>
      have hL : classifyRules ((pat, level) :: rest) path =
          classifyRules rest path := by simp [classifyRules, hs]
      rw [hL, ih]
      constructor
      · rintro ⟨l1, l2, heq, hp, hall⟩
        refine ⟨(pat, level) :: l1, l2, by simp [heq], hp, ?_⟩
        intro r hr
        rcases List.mem_cons.mp hr with rfl | hr'
        · exact hs
        · exact hall r hr'
      · rintro ⟨l1, l2, heq, hp, hall⟩
        cases l1 with
        | nil =>
          exfalso
          simp only [List.nil_append, List.cons.injEq] at heq
          have hpp : pat = p := congrArg Prod.fst heq.1
          rw [← hpp] at hp
          simp [hs] at hp
        | cons r l1' =>
          simp only [List.cons_append, List.cons.injEq] at heq
          exact ⟨l1', l2, heq.2, hp,
            fun r' hr' => hall r' (List.mem_cons_of_mem r hr')⟩

theorem mem_levelViolationsOf_iff (pi : String × List String)
    (v : Violation) :
    v ∈ levelViolationsOf pi ↔
      v.package = pi.1 ∧ v.imp ∈ pi.2 ∧
      get_package_level pi.1 = some (v.pkg_level, v.pkg_pat) ∧
      get_package_level v.imp = some (v.imp_level, v.imp_pat) ∧
      v.pkg_level > v.imp_level ∧
      v.violation_type = "upward_dependency" := by
  obtain ⟨vp, vi, vpl, vpp, vil, vip, vvt⟩ := v
  cases hcl : get_package_level pi.1 with
  | none => simp [levelViolationsOf, hcl]
  | some lp =>
    obtain ⟨pl, pp⟩ := lp
    simp only [levelViolationsOf, hcl, List.mem_filterMap]
    constructor
    · rintro ⟨imp, himp, heq⟩
      cases hcl2 : get_package_level imp with
      | none =>
        simp only [hcl2] at heq
        exact Option.noConfusion heq
      | some lp2 =>
        obtain ⟨il, ip⟩ := lp2
        simp only [hcl2] at heq
        by_cases hgt : pl > il
        · rw [if_pos hgt] at heq
          have hmk := Option.some.inj heq
          rw [Violation.mk.injEq] at hmk
          obtain ⟨h1, h2, h3, h4, h5, h6, h7⟩ := hmk
          subst h1; subst h2; subst h3; subst h4; subst h5; subst h6
          subst h7
          exact ⟨rfl, himp, rfl, hcl2, hgt, rfl⟩
        · rw [if_neg hgt] at heq; cases heq
    · rintro ⟨hpkg, himp, hclp, hcli, hgt, hvt⟩
      refine ⟨vi, himp, ?_⟩
      have hpair := Option.some.inj hclp
      have hpl : pl = vpl := congrArg Prod.fst hpair
      have hpp : pp = vpp := congrArg Prod.snd hpair
      simp only [hcli]
      rw [if_pos (by omega)]
      subst hpkg; subst hpl; subst hpp; subst hvt
      rfl

theorem mem_pkgToInternalOf_iff (pi : String × List String) (msg : String) :
    msg ∈ pkgToInternalOf pi ↔
      startsWithB pi.1 pkgSurface = true ∧
      ∃ imp ∈ pi.2, substrB "internal/" imp = true ∧
        msg = "  " ++ pi.1 ++ " imports " ++ imp := by
  cases hs : startsWithB pi.1 pkgSurface with
  | false => simp [pkgToInternalOf, hs]
  | true =>
    have hbody : pkgToInternalOf pi = pi.2.filterMap (fun imp =>
        if substrB "internal/" imp then
          some ("  " ++ pi.1 ++ " imports " ++ imp)
        else none) := by
      simp [pkgToInternalOf, hs]
    rw [hbody]
    simp only [List.mem_filterMap, hs, true_and]
    constructor
    · rintro ⟨imp, himp, heq⟩
      cases hsub : substrB "internal/" imp with
      | false => rw [hsub, if_neg Bool.false_ne_true] at heq; cases heq
      | true =>
        rw [hsub, if_pos rfl] at heq
        exact ⟨imp, himp, hsub, (Option.some.inj heq).symm⟩
    · rintro ⟨imp, himp, hsub, rfl⟩
      exact ⟨imp, himp, by rw [hsub, if_pos rfl]⟩

/-- Membership characterization of the `level_violations` list. -/
theorem mem_level_violations_iff (imports : List (String × List String))
    (v : Violation) :
    v ∈ (analyze_violations imports).1 ↔
      ∃ l, (v.package, l) ∈ imports ∧ v.imp ∈ l ∧
        get_package_level v.package = some (v.pkg_level, v.pkg_pat) ∧
        get_package_level v.imp = some (v.imp_level, v.imp_pat) ∧
        v.pkg_level > v.imp_level ∧
        v.violation_type = "upward_dependency" := by
  rw [analyze_violations_eq]
  simp only [List.mem_flatMap, mem_levelViolationsOf_iff]
  constructor
  · rintro ⟨pi, hpi, hpkg, himp, hclp, hcli, hgt, hvt⟩
    exact ⟨pi.2, by rw [hpkg]; exact hpi, himp, by rw [hpkg]; exact hclp,
      hcli, hgt, hvt⟩
  · rintro ⟨l, hmem, himp, hclp, hcli, hgt, hvt⟩
    exact ⟨(v.package, l), hmem, rfl, himp, hclp, hcli, hgt, hvt⟩

/-- Membership characterization of the `pkg_to_internal` list. -/
theorem mem_pkg_to_internal_iff (imports : List (String × List String))
    (msg : String) :
    msg ∈ (analyze_violations imports).2 ↔
      ∃ p l imp, (p, l) ∈ imports ∧ imp ∈ l ∧
        startsWithB p pkgSurface = true ∧
        substrB "internal/" imp = true ∧
        msg = "  " ++ p ++ " imports " ++ imp := by
  rw [analyze_violations_eq]
  simp only [List.mem_flatMap, mem_pkgToInternalOf_iff]
  constructor
  · rintro ⟨pi, hpi, hsw, imp, himp, hsub, rfl⟩
    exact ⟨pi.1, pi.2, imp, hpi, himp, hsw, hsub, rfl⟩
  · rintro ⟨p, l, imp, hmem, himp, hsw, hsub, rfl⟩
    exact ⟨(p, l), hmem, hsw, imp, himp, hsub, rfl⟩

/-! ## Small computation helpers for the detector -/

theorem adj_cons_self (g : List (String × List String)) (x : String)
    (l : List String) : adj ((x, l) :: g) x = l := by
  unfold adj
  rw [@List.find?_cons_of_pos _ (fun pi => pi.1 == x) (x, l) g (by simp)]

theorem adj_cons_ne (g : List (String × List String)) (x y : String)
    (l : List String) (h : x ≠ y) : adj ((x, l) :: g) y = adj g y := by
  unfold adj
  rw [@List.find?_cons_of_neg _ (fun pi => pi.1 == y) (x, l) g (by simp [h])]

theorem has_path_ins_self (g : List (String × List String)) (fuel : Nat)
    (s : String) (v : List String) :
    has_path_ins g (fuel + 1) s s v = (true, false) := by
  rw [has_path_ins_succ, if_pos rfl]

/-- Unfolding `find_circular_dependencies` to its components. -/
theorem find_circular_eq (imports : List (String × List String)) :
    find_circular_dependencies imports =
      run_packages (buildGraph imports)
        (node_measure (buildGraph imports) [] + 1)
        (graphKeys (buildGraph imports))
        { cycles := [], checked := [], inserted := false } := rfl

/-! ## Claim theorems -/

/-- C3: classification scans the rule list in order and returns the tier and
pattern of the first rule whose pattern occurs as a substring of the path
(`none` when no rule matches); matching is substring containment, and with
rules `[("a/b", 1), ("a", 2)]` the path `"x/a/b/y"` classifies to tier 1. -/
theorem claim_C3_first_match_classification :
    (∀ path, get_package_level path = classifyRules HIERARCHY path) ∧
    (∀ rules path, classifyRules rules path = none ↔
      ∀ r ∈ rules, substrB r.1 path = false) ∧
    (∀ rules path t p, classifyRules rules path = some (t, p) ↔
      ∃ l1 l2, rules = l1 ++ (p, t) :: l2 ∧ substrB p path = true ∧
        ∀ r ∈ l1, substrB r.1 path = false) ∧
    (∀ pat path, substrB pat path = true ↔
      ∃ l r, path.toList = l ++ pat.toList ++ r) ∧
    classifyRules [("a/b", 1), ("a", 2)] "x/a/b/y" = some (1, "a/b") :=
  ⟨fun _ => rfl, classifyRules_eq_none_iff, classifyRules_eq_some_iff,
   substrB_iff, by decide⟩

/-- C1: an `upward_dependency` violation is recorded for an edge exactly when
both endpoints are classified and the from-tier strictly exceeds the to-tier,
carrying those tiers; a tier-3 → tier-1 edge yields exactly one such
violation with `pkg_level = 3`, `imp_level = 1`; an edge with an unclassified
endpoint yields no tier violation. -/
theorem claim_C1_upward_dependency_iff :
    (∀ imports v, v ∈ (analyze_violations imports).1 ↔
      ∃ l, (v.package, l) ∈ imports ∧ v.imp ∈ l ∧
        get_package_level v.package = some (v.pkg_level, v.pkg_pat) ∧
        get_package_level v.imp = some (v.imp_level, v.imp_pat) ∧
        v.pkg_level > v.imp_level ∧
        v.violation_type = "upward_dependency") ∧
    (analyze_violations [("github.com/yairfalse/vaino/internal/collectors/x",
        ["github.com/yairfalse/vaino/cmd/y"])]).1 =
      [{ package := "github.com/yairfalse/vaino/internal/collectors/x",
         imp := "github.com/yairfalse/vaino/cmd/y",
         pkg_level := 3, pkg_pat := "internal/collectors/",
         imp_level := 1, imp_pat := "cmd/",
         violation_type := "upward_dependency" }] ∧
    (analyze_violations [("x/unclassified-module",
        ["github.com/yairfalse/vaino/cmd/y"])]).1 = [] ∧
    (analyze_violations [("github.com/yairfalse/vaino/internal/collectors/x",
        ["y/unclassified-module"])]).1 = [] :=
  ⟨mem_level_violations_iff, by decide, by decide, by decide⟩

/-- C2: evidence for the `defaultdict` slip.  On the input
`{a: [b], b: [c], c: [d]}` (where `d` is unknown), module `c` is a dead end —
it is a neighbour of `b` but has no retained outgoing edge, so it is not a
key of the adjacency dict — and the reachability search evaluates
`graph[c]`, growing the dict mid-iteration; the function therefore raises
`RuntimeError` (modelled as `Except.error ()`) instead of returning. -/
theorem claim_C2_dead_end_runtime_error :
    isKey (buildGraph [("a", ["b"]), ("b", ["c"]), ("c", ["d"])]) "c" =
      false ∧
    "c" ∈ adj (buildGraph [("a", ["b"]), ("b", ["c"]), ("c", ["d"])]) "b" ∧
    find_circular_dependencies [("a", ["b"]), ("b", ["c"]), ("c", ["d"])] =
      Except.error () :=
  ⟨rfl, by decide, rfl⟩

/-- C7 counterexample: an edge list whose paths include the empty string is
accepted — the graph is built, cycle analysis returns normally with the cycle
`("", "a")`, and the violation pass returns normally as well; no
`MalformedInputError` (nor any other failure) occurs at construction time. -/
theorem claim_C7_counterexample_empty_path_accepted :
    find_circular_dependencies [("", ["a"]), ("a", [""])] =
      Except.ok [("", "a")] ∧
    analyze_violations [("", ["a"]), ("a", [""])] = ([], []) :=
  ⟨rfl, rfl⟩

/-- C7 amended: graph construction performs no validation of module paths —
there is no `MalformedInputError` anywhere in the code.  Arbitrary strings
(including the empty string and any malformed path) are processed like any
other module name: an edge to an unknown module is dropped, a self-loop on
any string is detected as a cycle, and the empty path is merely
unclassified. -/
theorem claim_C7_amended_no_path_validation :
    (∀ p i : String, p ≠ i →
      find_circular_dependencies [(p, [i])] = Except.ok []) ∧
    (∀ p : String, find_circular_dependencies [(p, [p])] =
      Except.ok [(p, p)]) ∧
    get_package_level "" = none := by
  refine ⟨?_, ?_, rfl⟩
  · intro p i hne
    have hne' : i ≠ p := Ne.symm hne
    have hb : buildGraph [(p, [i])] = [] := by
      simp [buildGraph, List.contains_cons, hne']
    rw [find_circular_eq, hb]
    rfl
  · intro p
    have hb : buildGraph [(p, [p])] = [(p, [p])] := by
      simp [buildGraph, addEdge, List.contains_cons]
    have hm : node_measure [(p, [p])] [] = 1 := by
      simp [node_measure, graphKeys]
    rw [find_circular_eq, hb, hm]
    have hkeys : graphKeys [(p, [p])] = [p] := rfl
    rw [hkeys]
    simp only [run_packages, process_package, check_import,
      adj_cons_self, List.foldl_cons, List.foldl_nil]
    rw [has_path_ins_self]
    simp [isKey, graphKeys, List.contains_cons, run_packages]

/-- Witness for the amended C7 at concrete malformed module paths. -/
theorem claim_C7_amended_witness :
    find_circular_dependencies [("", ["a"])] = Except.ok [] ∧
    find_circular_dependencies [("!!", ["!!"])] =
      Except.ok [("!!", "!!")] :=
  ⟨claim_C7_amended_no_path_validation.1 "" "a" (by decide),
   claim_C7_amended_no_path_validation.2.1 "!!"⟩

/-- C5: an edge produces a `pkg_to_internal` finding exactly when the
from-module starts with the project `pkg/` namespace and the to-module
contains `internal/`, with no reference to tier classification at all; an
edge between two unclassified modules still produces the finding, and a
single edge can produce both an encapsulation finding and an
`upward_dependency` violation. -/
theorem claim_C5_pkg_to_internal_independent :
    (∀ imports msg, msg ∈ (analyze_violations imports).2 ↔
      ∃ p l imp, (p, l) ∈ imports ∧ imp ∈ l ∧
        startsWithB p pkgSurface = true ∧
        substrB "internal/" imp = true ∧
        msg = "  " ++ p ++ " imports " ++ imp) ∧
    analyze_violations [("github.com/yairfalse/vaino/pkg/zzz/x",
        ["github.com/yairfalse/vaino/internal/zzz/y"])] =
      ([], ["  github.com/yairfalse/vaino/pkg/zzz/x imports github.com/yairfalse/vaino/internal/zzz/y"]) ∧
    analyze_violations [("github.com/yairfalse/vaino/pkg/types/x",
        ["github.com/yairfalse/vaino/internal/config/y"])] =
      ([{ package := "github.com/yairfalse/vaino/pkg/types/x",
          imp := "github.com/yairfalse/vaino/internal/config/y",
          pkg_level := 5, pkg_pat := "pkg/types/",
          imp_level := 4, imp_pat := "internal/config/",
          violation_type := "upward_dependency" }],
       ["  github.com/yairfalse/vaino/pkg/types/x imports github.com/yairfalse/vaino/internal/config/y"]) :=
  ⟨mem_pkg_to_internal_iff, by decide, by decide⟩

/-! ## The report ordering of `print_analysis` (line 208)

`sorted(violations, key=lambda x: (x['pkg_level'], x['imp_level']))` is a
stable sort by the two tier numbers only.  `List.insertionSort` with the
non-strict lexicographic relation on those two keys is also stable (an
element is inserted before the first element it is `≤` to, hence after all
earlier elements with an equal key), so it computes the same list. -/

/-- Non-strict comparison on the sort key `(pkg_level, imp_level)`. -/
def violLe (v w : Violation) : Prop :=
  v.pkg_level < w.pkg_level ∨
    (v.pkg_level = w.pkg_level ∧ v.imp_level ≤ w.imp_level)

instance : DecidableRel violLe := fun v w => by
  unfold violLe; infer_instance

instance : IsTotal Violation violLe :=
  ⟨fun a b => by unfold violLe; omega⟩

instance : IsTrans Violation violLe :=
  ⟨fun a b c hab hbc => by
    unfold violLe at hab hbc ⊢; omega⟩

/-- The ordering of the displayed violation report. -/
def sortViolations (vs : List Violation) : List Violation :=
  vs.insertionSort violLe

/-- Lexicographic order on character lists (standard string order). -/
def charListLeB : List Char → List Char → Bool
  | [], _ => true
  | _ :: _, [] => false
  | a :: as, b :: bs => if a = b then charListLeB as bs else decide (a < b)

/-- Lexicographic order on strings. -/
def strLeB (a b : String) : Bool := charListLeB a.toList b.toList

/-- The ordering claimed by the spec: `(fromTier, toTier)` ascending with
ties broken by the from-module's lexicographic order. -/
def claimTieLe (v w : Violation) : Prop :=
  v.pkg_level < w.pkg_level ∨
    (v.pkg_level = w.pkg_level ∧ (v.imp_level < w.imp_level ∨
      (v.imp_level = w.imp_level ∧ strLeB v.package w.package = true)))

instance : DecidableRel claimTieLe := fun v w => by
  unfold claimTieLe; infer_instance

/-- Adjacent-pair check for the claimed ordering. -/
def sortedByClaimB : List Violation → Bool
  | [] => true
  | [_] => true
  | v :: w :: rest => decide (claimTieLe v w) && sortedByClaimB (w :: rest)

/-- C6 counterexample: two tier-3 → tier-2 violations whose from-modules
appear in the input in reverse lexicographic order stay in input order in
the report (Python's sort key contains only the two tier numbers and the
sort is stable), so the displayed sequence is not tie-broken by from-module
lexicographic order. -/
theorem claim_C6_counterexample_no_lex_tiebreak :
    sortedByClaimB (sortViolations (analyze_violations
      [("github.com/yairfalse/vaino/internal/storage/a",
        ["github.com/yairfalse/vaino/internal/commands/c"]),
       ("github.com/yairfalse/vaino/internal/collectors/b",
        ["github.com/yairfalse/vaino/internal/commands/c"])]).1) = false := by
  decide

/-- C6 amended: the displayed tier-violation sequence is sorted by
`(fromTier, toTier)` ascending and is a permutation of the computed
violations; entries with equal keys keep their input order (stable sort) —
they are not reordered by from-module name, as the concrete tie example
shows. -/
theorem claim_C6_amended_sorted_by_tiers_stable :
    (∀ vs : List Violation, List.Sorted violLe (sortViolations vs) ∧
      (sortViolations vs).Perm vs) ∧
    sortViolations (analyze_violations
      [("github.com/yairfalse/vaino/internal/storage/a",
        ["github.com/yairfalse/vaino/internal/commands/c"]),
       ("github.com/yairfalse/vaino/internal/collectors/b",
        ["github.com/yairfalse/vaino/internal/commands/c"])]).1 =
      [{ package := "github.com/yairfalse/vaino/internal/storage/a",
         imp := "github.com/yairfalse/vaino/internal/commands/c",
         pkg_level := 3, pkg_pat := "internal/storage/",
         imp_level := 2, imp_pat := "internal/commands/",
         violation_type := "upward_dependency" },
       { package := "github.com/yairfalse/vaino/internal/collectors/b",
         imp := "github.com/yairfalse/vaino/internal/commands/c",
         pkg_level := 3, pkg_pat := "internal/collectors/",
         imp_level := 2, imp_pat := "internal/commands/",
         violation_type := "upward_dependency" }] :=
  ⟨fun vs => ⟨List.sorted_insertionSort violLe vs,
    List.perm_insertionSort violLe vs⟩, by decide⟩

/-- C8: the exit status is always 0 or 1; it is 0 exactly when extraction
yielded a non-empty import map, the cycle search returned normally, and the
produced report is clean (no tier violations, no pkg→internal findings, no
cycles); an empty extraction result (the extraction-failure path) exits 1. -/
theorem claim_C8_exit_code_clean_iff :
    (∀ imports, mainExitCode imports = 0 ∨ mainExitCode imports = 1) ∧
    (∀ imports, mainExitCode imports = 0 ↔
      imports ≠ [] ∧ ∃ cycles,
        find_circular_dependencies imports = Except.ok cycles ∧
        (analyze_violations imports).1 = [] ∧
        (analyze_violations imports).2 = [] ∧ cycles = []) ∧
    mainExitCode [] = 1 := by
  refine ⟨?_, ?_, rfl⟩
  · intro imports
    unfold mainExitCode
    by_cases he : imports.isEmpty = true
    · rw [if_pos he]; right; rfl
    · rw [if_neg he]
      cases hf : find_circular_dependencies imports with
      | error e => right; rfl
      | ok cycles =>
        by_cases hc : (analyze_violations imports).1.length +
            (analyze_violations imports).2.length + cycles.length > 0
        · right; simp only; rw [if_pos hc]
        · left; simp only; rw [if_neg hc]
  · intro imports
    constructor
    · intro h0
      unfold mainExitCode at h0
      by_cases he : imports.isEmpty = true
      · rw [if_pos he] at h0; exact absurd h0 one_ne_zero
      · rw [if_neg he] at h0
        cases hf : find_circular_dependencies imports with
        | error e => simp only [hf] at h0; exact absurd h0 one_ne_zero
        | ok cycles =>
          simp only [hf] at h0
          by_cases hc : (analyze_violations imports).1.length +
              (analyze_violations imports).2.length + cycles.length > 0
          · rw [if_pos hc] at h0; exact absurd h0 one_ne_zero
          · have h1 : (analyze_violations imports).1.length = 0 := by omega
            have h2 : (analyze_violations imports).2.length = 0 := by omega
            have h3 : cycles.length = 0 := by omega
            exact ⟨by simpa [List.isEmpty_iff] using he, cycles, hf ▸ rfl,
              List.length_eq_zero.mp h1, List.length_eq_zero.mp h2,
              List.length_eq_zero.mp h3⟩
    · rintro ⟨hne, cycles, hf, h1, h2, rfl⟩
      unfold mainExitCode
      rw [if_neg (by simpa [List.isEmpty_iff] using hne)]
      simp only [hf]
      rw [h1, h2]
      rfl

/-- C9: the reachability search needs only boundedly many steps — every fuel
beyond one plus the number of distinct dict keys not yet visited computes the
same answer as the bound itself, for every finite graph and every query run
with a fresh empty visited set (each outer query is independent; each branch
explores its own copy of `visited`, which the functional model realises by
passing `start :: visited` to every branch). -/
theorem claim_C9_has_path_terminates (graph : List (String × List String))
    (start stop : String) (fuel : Nat)
    (h : node_measure graph [] + 1 ≤ fuel) :
    has_path graph fuel start stop [] =
      has_path graph (node_measure graph [] + 1) start stop [] :=
  congrArg Prod.fst (has_path_ins_fuel_irrelevant graph start stop [] fuel h)

/-- Witness for C9 at a concrete cyclic graph and concrete oversized fuel. -/
theorem claim_C9_witness :
    node_measure [("a", ["a"])] [] + 1 ≤ 5 ∧
    has_path [("a", ["a"])] 5 "a" "b" [] =
      has_path [("a", ["a"])] (node_measure [("a", ["a"])] [] + 1)
        "a" "b" [] :=
  ⟨by decide,
   claim_C9_has_path_terminates [("a", ["a"])] "a" "b" 5 (by decide)⟩

/-! ## Invariants of the cycle-detection loop (claims C4 and C10) -/

/-- Loop invariant of `find_circular_dependencies`: `checked` holds exactly
the two orientations of every recorded pair, recorded pairs are distinct, and
no two distinct modules are ever recorded in both orientations. -/
def DetInv (st : DetState) : Prop :=
  (∀ q : String × String, q ∈ st.checked →
    q ∈ st.cycles ∨ q.swap ∈ st.cycles) ∧
  (∀ q : String × String, q ∈ st.cycles →
    q ∈ st.checked ∧ q.swap ∈ st.checked) ∧
  st.cycles.Nodup ∧
  (∀ a b : String, a ≠ b →
    ¬((a, b) ∈ st.cycles ∧ (b, a) ∈ st.cycles))

/-- `check_import` with its `let` bindings expanded. -/
theorem check_import_eq (graph : List (String × List String))
    (fuel : Nat) (package : String) (st : DetState) (imported : String) :
    check_import graph fuel package st imported =
      if isKey graph imported = true then
        if (has_path_ins graph fuel imported package []).1 = true then
          if (st.checked.contains (package, imported) ||
              st.checked.contains (imported, package)) = true then
            { cycles := st.cycles, checked := st.checked,
              inserted := st.inserted ||
                (has_path_ins graph fuel imported package []).2 }
          else
            { cycles := st.cycles ++ [(package, imported)],
              checked := (package, imported) :: (imported, package) ::
                st.checked,
              inserted := st.inserted ||
                (has_path_ins graph fuel imported package []).2 }
        else
          { cycles := st.cycles, checked := st.checked,
            inserted := st.inserted ||
              (has_path_ins graph fuel imported package []).2 }
      else st := rfl

theorem check_import_cycles_mono (graph : List (String × List String))
    (fuel : Nat) (package : String) (st : DetState) (imported : String) :
    ∃ t, (check_import graph fuel package st imported).cycles =
      st.cycles ++ t := by
  rw [check_import_eq]
  split
  · split
    · split
      · exact ⟨[], by simp⟩
      · exact ⟨[(package, imported)], rfl⟩
    · exact ⟨[], by simp⟩
  · exact ⟨[], by simp⟩

theorem foldl_check_cycles_mono (graph : List (String × List String))
    (fuel : Nat) (package : String) :
    ∀ (l : List String) (st : DetState),
      ∃ t, (l.foldl (check_import graph fuel package) st).cycles =
        st.cycles ++ t := by
  intro l
  induction l with
  | nil => intro st; exact ⟨[], by simp⟩
  | cons x l' ih =>
    intro st
    obtain ⟨t1, h1⟩ := check_import_cycles_mono graph fuel package st x
    obtain ⟨t2, h2⟩ := ih (check_import graph fuel package st x)
    exact ⟨t1 ++ t2, by
      simp only [List.foldl_cons, h2, h1, List.append_assoc]⟩

theorem check_import_inv (graph : List (String × List String))
    (fuel : Nat) (package : String) (st : DetState) (imported : String)
    (hinv : DetInv st) :
    DetInv (check_import graph fuel package st imported) := by
  rw [check_import_eq]
  split
  swap
  · exact hinv
  split
  swap
  · exact hinv
  split
  · exact hinv
  next hg =>
    obtain ⟨hA, hB, hC, hD⟩ := hinv
    have hg' := Bool.eq_false_iff.mpr hg
    rw [Bool.or_eq_false_iff] at hg'
    have hgm1 : (package, imported) ∉ st.checked := by simpa using hg'.1
    have hgm2 : (imported, package) ∉ st.checked := by simpa using hg'.2
    refine ⟨?_, ?_, ?_, ?_⟩
    · intro q hq
      rcases List.mem_cons.mp hq with rfl | hq
      · exact Or.inl (List.mem_append_right _ (List.mem_singleton.mpr rfl))
      rcases List.mem_cons.mp hq with rfl | hq
      · exact Or.inr (List.mem_append_right _ (List.mem_singleton.mpr rfl))
      · rcases hA q hq with h | h
        · exact Or.inl (List.mem_append_left _ h)
        · exact Or.inr (List.mem_append_left _ h)
    · intro q hq
      rcases List.mem_append.mp hq with hq | hq
      · obtain ⟨h1, h2⟩ := hB q hq
        exact ⟨List.mem_cons_of_mem _ (List.mem_cons_of_mem _ h1),
          List.mem_cons_of_mem _ (List.mem_cons_of_mem _ h2)⟩
      · rw [List.mem_singleton.mp hq]
        exact ⟨List.mem_cons_self _ _,
          List.mem_cons_of_mem _ (List.mem_cons_self _ _)⟩
    · rw [List.nodup_append]
      refine ⟨hC, List.nodup_singleton _, ?_⟩
      intro q hq hq'
      rw [List.mem_singleton.mp hq'] at hq
      exact hgm1 (hB _ hq).1
    · rintro a b hne ⟨h1, h2⟩
      rcases List.mem_append.mp h1 with h1 | h1 <;>
        rcases List.mem_append.mp h2 with h2 | h2
      · exact hD a b hne ⟨h1, h2⟩
      · have hP := List.mem_singleton.mp h2
        have hsw := (hB _ h1).2
        rw [show ((a, b) : String × String).swap = (b, a) from rfl,
          hP] at hsw
        exact hgm1 hsw
      · have hP := List.mem_singleton.mp h1
        have hsw := (hB _ h2).2
        rw [show ((b, a) : String × String).swap = (a, b) from rfl,
          hP] at hsw
        exact hgm1 hsw
      · have e1 := List.mem_singleton.mp h1
        have e2 := List.mem_singleton.mp h2
        have ha : a = package := congrArg Prod.fst e1
        have hb : b = package := congrArg Prod.fst e2
        exact hne (ha.trans hb.symm)

theorem foldl_check_inv (graph : List (String × List String))
    (fuel : Nat) (package : String) :
    ∀ (l : List String) (st : DetState), DetInv st →
      DetInv (l.foldl (check_import graph fuel package) st) := by
  intro l
  induction l with
  | nil => intro st h; exact h
  | cons x l' ih =>
    intro st h
    exact ih _ (check_import_inv graph fuel package st x h)

theorem process_package_inv (graph : List (String × List String))
    (fuel : Nat) (st : DetState) (package : String) (h : DetInv st) :
    DetInv (process_package graph fuel st package) :=
  foldl_check_inv graph fuel package _ st h

theorem process_package_cycles_mono (graph : List (String × List String))
    (fuel : Nat) (st : DetState) (package : String) :
    ∃ t, (process_package graph fuel st package).cycles =
      st.cycles ++ t :=
  foldl_check_cycles_mono graph fuel package _ st

theorem run_packages_nil (graph : List (String × List String))
    (fuel : Nat) (st : DetState) :
    run_packages graph fuel [] st =
      if st.inserted then .error () else .ok st.cycles := rfl

theorem run_packages_cons (graph : List (String × List String))
    (fuel : Nat) (p : String) (ps : List String) (st : DetState) :
    run_packages graph fuel (p :: ps) st =
      if st.inserted then .error ()
      else run_packages graph fuel ps
        (process_package graph fuel st p) := rfl

/-- Whenever the outer loop returns normally, its result extends the starting
cycles, keeps them duplicate-free, and never holds both orientations of a
pair of distinct modules. -/
theorem run_packages_ok_inv (graph : List (String × List String))
    (fuel : Nat) :
    ∀ (ks : List String) (st : DetState)
      (cycles : List (String × String)), DetInv st →
      run_packages graph fuel ks st = .ok cycles →
      (∃ t, cycles = st.cycles ++ t) ∧ cycles.Nodup ∧
      (∀ a b : String, a ≠ b →
        ¬((a, b) ∈ cycles ∧ (b, a) ∈ cycles)) := by
  intro ks
  induction ks with
  | nil =>
    intro st cycles hinv hrun
    rw [run_packages_nil] at hrun
    by_cases hi : st.inserted = true
    · rw [if_pos hi] at hrun; exact Except.noConfusion hrun
    · rw [if_neg hi] at hrun
      have hc := Except.ok.inj hrun
      subst hc
      exact ⟨⟨[], by simp⟩, hinv.2.2.1, hinv.2.2.2⟩
  | cons k ks' ih =>
    intro st cycles hinv hrun
    rw [run_packages_cons] at hrun
    by_cases hi : st.inserted = true
    · rw [if_pos hi] at hrun; exact Except.noConfusion hrun
    · rw [if_neg hi] at hrun
      obtain ⟨⟨t, ht⟩, hnd, hsw⟩ := ih (process_package graph fuel st k)
        cycles (process_package_inv graph fuel st k hinv) hrun
      obtain ⟨t0, ht0⟩ := process_package_cycles_mono graph fuel st k
      exact ⟨⟨t0 ++ t, by rw [ht, ht0, List.append_assoc]⟩, hnd, hsw⟩

/-- If `Q` is a dict key among the retained neighbours of `P` and the
reachability query from `Q` back to `P` succeeds, then processing `P`'s
adjacency records the pair in one orientation (or finds it already
recorded). -/
theorem foldl_check_hits (graph : List (String × List String))
    (fuel : Nat) (P Q : String) (hkey : isKey graph Q = true)
    (hpath : (has_path_ins graph fuel Q P []).1 = true) :
    ∀ (l : List String) (st : DetState), Q ∈ l → DetInv st →
      ((P, Q) ∈ (l.foldl (check_import graph fuel P) st).cycles ∨
       (Q, P) ∈ (l.foldl (check_import graph fuel P) st).cycles) := by
  intro l
  induction l with
  | nil => intro st hQ _; exact absurd hQ (List.not_mem_nil Q)
  | cons x l' ih =>
    intro st hQ hinv
    simp only [List.foldl_cons]
    rcases List.mem_cons.mp hQ with rfl | hQ'
    · have hmem : (P, Q) ∈ (check_import graph fuel P st Q).cycles ∨
          (Q, P) ∈ (check_import graph fuel P st Q).cycles := by
        rw [check_import_eq, if_pos hkey, if_pos hpath]
        by_cases hg : (st.checked.contains (P, Q) ||
            st.checked.contains (Q, P)) = true
        · rw [if_pos hg]
          rcases Bool.or_eq_true_iff.mp hg with h | h
          · have hm : (P, Q) ∈ st.checked := by simpa using h
            rcases hinv.1 _ hm with h' | h'
            · exact Or.inl h'
            · exact Or.inr h'
          · have hm : (Q, P) ∈ st.checked := by simpa using h
            rcases hinv.1 _ hm with h' | h'
            · exact Or.inr h'
            · exact Or.inl h'
        · rw [if_neg hg]
          exact Or.inl (List.mem_append_right _
            (List.mem_singleton.mpr rfl))
      obtain ⟨t, ht⟩ := foldl_check_cycles_mono graph fuel P l'
        (check_import graph fuel P st Q)
      rcases hmem with h | h
      · exact Or.inl (ht ▸ List.mem_append_left _ h)
      · exact Or.inr (ht ▸ List.mem_append_left _ h)
    · exact ih (check_import graph fuel P st x) hQ'
        (check_import_inv graph fuel P st x hinv)

theorem run_packages_reports (graph : List (String × List String))
    (fuel : Nat) (P Q : String) (hQadj : Q ∈ adj graph P)
    (hkey : isKey graph Q = true)
    (hpath : (has_path_ins graph fuel Q P []).1 = true) :
    ∀ (ks : List String) (st : DetState)
      (cycles : List (String × String)), DetInv st → P ∈ ks →
      run_packages graph fuel ks st = .ok cycles →
      ((P, Q) ∈ cycles ∨ (Q, P) ∈ cycles) := by
  intro ks
  induction ks with
  | nil => intro st cycles _ hP _; exact absurd hP (List.not_mem_nil P)
  | cons k ks' ih =>
    intro st cycles hinv hP hrun
    rw [run_packages_cons] at hrun
    by_cases hi : st.inserted = true
    · rw [if_pos hi] at hrun; exact Except.noConfusion hrun
    · rw [if_neg hi] at hrun
      rcases List.mem_cons.mp hP with rfl | hP'
      · have hhit := foldl_check_hits graph fuel P Q hkey hpath
          (adj graph P) st hQadj hinv
        obtain ⟨⟨t, ht⟩, -, -⟩ := run_packages_ok_inv graph fuel ks'
          (process_package graph fuel st P) cycles
          (process_package_inv graph fuel st P hinv) hrun
        unfold process_package at ht
        rcases hhit with h | h
        · exact Or.inl (ht ▸ List.mem_append_left _ h)
        · exact Or.inr (ht ▸ List.mem_append_left _ h)
      · exact ih (process_package graph fuel st k) cycles
          (process_package_inv graph fuel st k hinv) hP' hrun

theorem detInv_init : DetInv ⟨[], [], false⟩ :=
  ⟨fun q hq => absurd hq (List.not_mem_nil q),
   fun q hq => absurd hq (List.not_mem_nil q),
   List.nodup_nil,
   fun _ _ _ h => absurd h.1 (List.not_mem_nil _)⟩

theorem isKey_of_adj_mem (graph : List (String × List String))
    (x n : String) (h : n ∈ adj graph x) : isKey graph x = true := by
  cases hk : isKey graph x with
  | true => rfl
  | false =>
    rw [adj_eq_nil_of_not_isKey graph x hk] at h
    exact absurd h (List.not_mem_nil n)

theorem node_measure_pos_of_isKey (graph : List (String × List String))
    (x : String) (h : isKey graph x = true) :
    1 ≤ node_measure graph [] := by
  have hPin : x ∈ graphKeys graph := by simpa [isKey] using h
  have hmem : x ∈ (graphKeys graph).dedup.filter
      (fun y => !(([] : List String).contains y)) := by
    rw [List.mem_filter]
    exact ⟨List.mem_dedup.mpr hPin, by simp⟩
  have hpos := List.length_pos.mpr (List.ne_nil_of_mem hmem)
  simpa [node_measure] using hpos

/-- C4: on any normal run the result never contains both orderings of a pair
of distinct modules; and a mutually-linked pair of distinct modules (a direct
edge each way, which in particular gives a direct edge plus a transitive path
back) is reported exactly once — the result list is duplicate-free and
contains the pair in exactly one orientation. -/
theorem claim_C4_mutual_pair_reported_once :
    (∀ (imports : List (String × List String))
      (cycles : List (String × String)) (a b : String), a ≠ b →
      find_circular_dependencies imports = Except.ok cycles →
      ¬((a, b) ∈ cycles ∧ (b, a) ∈ cycles)) ∧
    (∀ (imports : List (String × List String))
      (cycles : List (String × String)) (a b : String), a ≠ b →
      b ∈ adj (buildGraph imports) a → a ∈ adj (buildGraph imports) b →
      find_circular_dependencies imports = Except.ok cycles →
      cycles.Nodup ∧
        (((a, b) ∈ cycles ∧ (b, a) ∉ cycles) ∨
         ((b, a) ∈ cycles ∧ (a, b) ∉ cycles))) := by
  constructor
  · intro imports cycles a b hne hok
    obtain ⟨-, -, hsw⟩ := run_packages_ok_inv (buildGraph imports)
      (node_measure (buildGraph imports) [] + 1)
      (graphKeys (buildGraph imports)) ⟨[], [], false⟩ cycles detInv_init
      (by rw [← find_circular_eq]; exact hok)
    exact hsw a b hne
  · intro imports cycles a b hne hab hba hok
    have hka : isKey (buildGraph imports) a = true :=
      isKey_of_adj_mem _ a b hab
    have hkb : isKey (buildGraph imports) b = true :=
      isKey_of_adj_mem _ b a hba
    have hm1 : 1 ≤ node_measure (buildGraph imports) [] :=
      node_measure_pos_of_isKey _ a hka
    obtain ⟨m', hm'⟩ : ∃ m', node_measure (buildGraph imports) [] =
        m' + 1 := ⟨node_measure (buildGraph imports) [] - 1, by omega⟩
    have hpath : (has_path_ins (buildGraph imports)
        (node_measure (buildGraph imports) [] + 1) b a []).1 = true := by
      show has_path (buildGraph imports)
        (node_measure (buildGraph imports) [] + 1) b a [] = true
      rw [has_path_succ, if_neg (Ne.symm hne), if_neg (by simp)]
      apply List.any_eq_true.mpr
      refine ⟨a, hba, ?_⟩
      rw [hm']
      show (has_path_ins (buildGraph imports) (m' + 1) a a [b]).1 = true
      rw [has_path_ins_self]
    have hPin : a ∈ graphKeys (buildGraph imports) := by
      simpa [isKey] using hka
    have hrep := run_packages_reports (buildGraph imports)
      (node_measure (buildGraph imports) [] + 1) a b hab hkb hpath
      (graphKeys (buildGraph imports)) ⟨[], [], false⟩ cycles detInv_init
      hPin (by rw [← find_circular_eq]; exact hok)
    obtain ⟨-, hnd, hsw⟩ := run_packages_ok_inv (buildGraph imports)
      (node_measure (buildGraph imports) [] + 1)
      (graphKeys (buildGraph imports)) ⟨[], [], false⟩ cycles detInv_init
      (by rw [← find_circular_eq]; exact hok)
    refine ⟨hnd, ?_⟩
    rcases hrep with h | h
    · exact Or.inl ⟨h, fun hm => hsw a b hne ⟨h, hm⟩⟩
    · exact Or.inr ⟨h, fun hm => hsw a b hne ⟨hm, h⟩⟩

/-- Witness for C4 at the concrete two-cycle `a ⇄ b`. -/
theorem claim_C4_witness :
    (¬((("a", "b") ∈ [(("a" : String), ("b" : String))] ∧
        ("b", "a") ∈ [(("a" : String), ("b" : String))]))) ∧
    ([(("a" : String), ("b" : String))].Nodup ∧
      ((("a", "b") ∈ [(("a" : String), ("b" : String))] ∧
          ("b", "a") ∉ [(("a" : String), ("b" : String))]) ∨
       (("b", "a") ∈ [(("a" : String), ("b" : String))] ∧
          ("a", "b") ∉ [(("a" : String), ("b" : String))]))) :=
  ⟨claim_C4_mutual_pair_reported_once.1 [("a", ["b"]), ("b", ["a"])]
     [("a", "b")] "a" "b" (by decide) rfl,
   claim_C4_mutual_pair_reported_once.2 [("a", ["b"]), ("b", ["a"])]
     [("a", "b")] "a" "b" (by decide) (by decide) (by decide) rfl⟩

/-- C10: a module with a retained self-edge is reported as the degenerate
pair `(P, P)` whenever the detection loop returns normally, because the
reachability test succeeds immediately when start equals end. -/
theorem claim_C10_self_loop_reported
    (imports : List (String × List String))
    (cycles : List (String × String)) (P : String)
    (hself : P ∈ adj (buildGraph imports) P)
    (hok : find_circular_dependencies imports = Except.ok cycles) :
    (P, P) ∈ cycles := by
  have hk : isKey (buildGraph imports) P = true :=
    isKey_of_adj_mem _ P P hself
  have hpath : (has_path_ins (buildGraph imports)
      (node_measure (buildGraph imports) [] + 1) P P []).1 = true := by
    rw [has_path_ins_self]
  have hPin : P ∈ graphKeys (buildGraph imports) := by
    simpa [isKey] using hk
  have hrep := run_packages_reports (buildGraph imports)
    (node_measure (buildGraph imports) [] + 1) P P hself hk hpath
    (graphKeys (buildGraph imports)) ⟨[], [], false⟩ cycles detInv_init
    hPin (by rw [← find_circular_eq]; exact hok)
  rcases hrep with h | h <;> exact h

/-- Witness for C10 at the concrete self-loop `p → p`. -/
theorem claim_C10_witness :
    (("p", "p") ∈ [(("p" : String), ("p" : String))]) :=
  claim_C10_self_loop_reported [("p", ["p"])] [("p", "p")] "p"
    (by decide) rfl

end Vaino
